import Mathlib

/-!
Verification of the torchns nested sampler (src/torchns/ns.py).

The Python code is embedded shallowly:

* Scalars produced by the likelihood oracle, live-point coordinates and the
  running volume are modelled as rationals (every floating point number is a
  rational); the logarithmic quantities the code stores with np.log / torch.exp
  are modelled in ℝ via Real.log / Real.exp.
* Randomness (torch.randn, torch.rand, np.random.choice, torch.multinomial) and
  the likelihood oracle are external inputs: functions consuming their values
  take the drawn values / returned batches as explicit arguments.
* Fallible tensor operations (reductions over empty tensors, torch.cat over an
  empty list) are modelled with Option: none is the raised RuntimeError.
-/

namespace TorchNS

/-- Minimum of a rational list, mirroring torch.Tensor.min() / np.argmin on the
nonempty live-likelihood tensor; the default 0 is never reached on the nonempty
lists the sampler uses. -/
def listMin (xs : List ℚ) : ℚ := (xs.min?).getD 0

/-- First index attaining the minimum, mirroring np.argmin (ns.py line 147):
numpy returns the first occurrence of the minimum. -/
def argminIdx (xs : List ℚ) : ℕ := xs.findIdx (fun a => decide (a ≤ listMin xs))

/-- One retired record of the dead-point archive.  The code appends to four
parallel lists (ns.py lines 149-157); we keep one record per append.  The code
stores np.log(V) (line 151) and Lmin + np.log(V new / NLP) (line 157); since ℚ
keeps the state exact, the record stores the rational volume arguments and the
log views below (samples_logv, samples_logwt) apply Real.log pointwise. -/
structure NSRecord (α : Type) where
  x : α
  logl : ℚ
  Vpre : ℚ
  VoverN : ℚ
deriving DecidableEq

instance {α : Type} [Inhabited α] : Inhabited (NSRecord α) :=
  ⟨⟨default, 0, 0, 0⟩⟩

/-- The mutable state of NestedSampler.nested_sampling (ns.py lines 103-119):
live points with their log-likelihoods, the running volume V, and the archive
of dead points.  Z and Z_rest (lines 118-119, 158-159) only feed the break at
line 162; a run is modelled as an arbitrary finite sequence of loop iterations,
so the break conditions need no explicit state (Z is recoverable from the
archive: dZ of a record is VoverN * exp logl). -/
structure NSState (α : Type) where
  X_live : List α
  L_live : List ℚ
  V : ℚ
  archive : List (NSRecord α)
deriving DecidableEq

/-- Lines 146-159 of ns.py, the body executed for one accepted candidate
(x, l): evict the first minimum-likelihood live point into the archive with the
pre-eviction volume, overwrite it with the candidate, shrink V by (1 - 1/NLP),
and record the weight data Lmin + np.log(V new / NLP).  NLP is the (constant)
size of the live population. -/
def acceptCandidate {α : Type} [Inhabited α] (st : NSState α) (x : α) (l : ℚ) :
    NSState α :=
  let NLP : ℕ := st.L_live.length
  let i : ℕ := argminIdx st.L_live
  let Lmin : ℚ := st.L_live.getD i 0
  let Vnew : ℚ := st.V * (1 - 1 / (NLP : ℚ))
  { X_live := st.X_live.set i x
    L_live := st.L_live.set i l
    V := Vnew
    archive := st.archive ++ [⟨st.X_live.getD i default, Lmin, st.V, Vnew / (NLP : ℚ)⟩] }

/-- Lines 145-161 of ns.py: walk the candidates returned by _gen_new_samples in
order; a candidate whose log-likelihood exceeds the current (re-computed)
population minimum is accepted, the first failing candidate stops the walk. -/
def processCands {α : Type} [Inhabited α] (st : NSState α) :
    List (α × ℚ) → NSState α
  | [] => st
  | (x, l) :: rest =>
    if listMin st.L_live < l then processCands (acceptCandidate st x l) rest
    else st

/-- A run is a finite sequence of driver iterations; each iteration contributes
the candidate batch returned by _gen_new_samples (possibly empty).  The breaks
at lines 130-133 and 162-163 only cut the sequence short, so every run is
nsRun applied to some finite schedule of batches. -/
def nsRun {α : Type} [Inhabited α] (st : NSState α) :
    List (List (α × ℚ)) → NSState α
  | [] => st
  | cands :: rest => nsRun (processCands st cands) rest

/-- Initial state of nested_sampling (lines 103-117): live points and their
likelihoods as supplied, V = 1.0, empty archive. -/
def initState {α : Type} (X : List α) (L : List ℚ) : NSState α :=
  { X_live := X, L_live := L, V := 1, archive := [] }

/-- The log-volume entry appended at line 151: np.log of the pre-eviction
volume stored in the record. -/
noncomputable def logvOf {α : Type} (r : NSRecord α) : ℝ := Real.log (r.Vpre : ℝ)

/-- The log-weight entry appended at line 157: logl + np.log(VoverN), where
VoverN is V / NLP for the volume V after the shrink at line 154. -/
noncomputable def logwtOf {α : Type} (r : NSRecord α) : ℝ :=
  (r.logl : ℝ) + Real.log ((r.VoverN : ℚ) : ℝ)

/-- The incremental evidence appended at line 155: dZ = V/NLP * exp(Lmin). -/
noncomputable def dZOf {α : Type} (r : NSRecord α) : ℝ :=
  ((r.VoverN : ℚ) : ℝ) * Real.exp (r.logl : ℝ)

/-- The tensor self.samples_logv saved at lines 164, 171. -/
noncomputable def samples_logv {α : Type} (st : NSState α) : List ℝ :=
  st.archive.map logvOf

/-- The tensor self.samples_logl saved at lines 165, 172. -/
def samples_logl {α : Type} (st : NSState α) : List ℚ :=
  st.archive.map (fun r => r.logl)

/-- The tensor self.samples_logwt saved at lines 167, 173. -/
noncomputable def samples_logwt {α : Type} (st : NSState α) : List ℝ :=
  st.archive.map logwtOf

/-- Unconditional processing of a candidate list: every candidate is accepted
in order.  processCands agrees with processAll on a prefix on which every
candidate beats the then-current population minimum. -/
def processAll {α : Type} [Inhabited α] (st : NSState α) (cands : List (α × ℚ)) :
    NSState α :=
  cands.foldl (fun s c => acceptCandidate s c.1 c.2) st

/-- The candidate list is accepted entirely: each entry in turn strictly
exceeds the population minimum current at its position in the walk. -/
def allAccepted {α : Type} [Inhabited α] (st : NSState α) : List (α × ℚ) → Prop
  | [] => True
  | (x, l) :: rest => listMin st.L_live < l ∧ allAccepted (acceptCandidate st x l) rest

/-- Bookkeeping invariant of the main loop for a population of size N: the
population size is constant, the running volume is (1 - 1/N)^(number of
records), and the k-th archived record stores the pre-eviction volume
(1 - 1/N)^k together with the post-shrink per-point volume
(1 - 1/N)^(k+1) / N. -/
def GoodState {α : Type} [Inhabited α] (N : ℕ) (st : NSState α) : Prop :=
  st.L_live.length = N ∧
  st.V = (1 - 1 / (N : ℚ)) ^ st.archive.length ∧
  ∀ k, k < st.archive.length →
    (st.archive.getD k default).Vpre = (1 - 1 / (N : ℚ)) ^ k ∧
    (st.archive.getD k default).VoverN = (1 - 1 / (N : ℚ)) ^ (k + 1) / (N : ℚ)

/-- Maximum of an integer list ((accept matrix row).int().max() behind
torch.argmax); default 0 is the argmax convention on an all-equal row. -/
def listMaxZ (xs : List ℤ) : ℤ := (xs.max?).getD 0

/-- First index attaining the maximum, mirroring torch.argmax (ns.py line 82):
torch returns the index of the first maximal value. -/
def argmaxIdx (xs : List ℤ) : ℕ := xs.findIdx (fun a => decide (listMaxZ xs ≤ a))

/-- The cast accept_matrix.int() of line 82. -/
def boolInt (b : Bool) : ℤ := if b then 1 else 0

/-- Lines 79-88 of ns.py for a single chain of one slice-sampling step: given
the chain's working position x with working log-likelihood logl and the list of
proposed points for this step (the chain's row of pX, built at lines 72-78 from
the drawn direction, the bracket offsets and the whitening factor), evaluate
the oracle and the bound on each proposal, accept iff the proposal's
log-likelihood strictly exceeds the threshold and it is in bounds (line 81),
select the candidate at torch.argmax of the int-cast accept row (lines 82-84),
and move the chain only when the row has at least one acceptance (lines
85-87). -/
def sliceStepChain {α : Type} (inbound : α → Bool) (logl_fn : α → ℚ)
    (logl_th : ℚ) (x : α) (logl : ℚ) (props : List α) : α × ℚ :=
  let accept : List Bool := props.map (fun p => decide (logl_th < logl_fn p) && inbound p)
  let idx : ℕ := argmaxIdx (accept.map boolInt)
  let accept_any : Bool := accept.any id
  if accept_any then ((props.getD idx x), (props.map logl_fn).getD idx logl)
  else (x, logl)

/-- Sample mean of one coordinate over a list of D-dimensional points. -/
def sampleMean {d : ℕ} (X : List (Fin d → ℚ)) (j : Fin d) : ℚ :=
  (X.map (fun p => p j)).sum / (X.length : ℚ)

/-- torch.cov(X.T) at ns.py line 240: the sample covariance of the points of X
(rows of the tensor X are observations, columns are the D variables), with the
default correction 1, i.e. normalisation by (number of points - 1). -/
def sampleCov {d : ℕ} (X : List (Fin d → ℚ)) : Matrix (Fin d) (Fin d) ℚ :=
  Matrix.of fun j k =>
    (X.map (fun p => (p j - sampleMean X j) * (p k - sampleMean X k))).sum /
      ((X.length : ℚ) - 1)

/-- The matrix handed to torch.linalg.cholesky by _calc_Lchol(X) (line 240):
the sample covariance of X.  Which point set the whitening factor is computed
from is decided by which point set appears here. -/
def calcLcholCov {d : ℕ} (X : List (Fin d → ℚ)) : Matrix (Fin d) (Fin d) ℚ :=
  sampleCov X

/-- Lines 65-66 of ns.py: the covariance matrix the whitening factor used by
_gen_new_samples is the Cholesky factor of.  When a factor (equivalently, its
covariance) is passed in it is used as is; when none is passed the factor is
computed by _calc_Lchol(X_seeds), the seed batch of the call. -/
def gnsWhitenCov {d : ℕ} (X_seeds : List (Fin d → ℚ))
    (cov? : Option (Matrix (Fin d) (Fin d) ℚ)) : Matrix (Fin d) (Fin d) ℚ :=
  cov?.getD (calcLcholCov X_seeds)

/-- Line 246 of ns.py: the repaired covariance cov - 2 * mineig * Identity
tried after the first torch.linalg.cholesky raised. -/
def repairedCov {n : ℕ} (cov : Matrix (Fin n) (Fin n) ℝ) (mineig : ℝ) :
    Matrix (Fin n) (Fin n) ℝ :=
  cov - (2 * mineig) • (1 : Matrix (Fin n) (Fin n) ℝ)

/-- The Rayleigh lower bound: m is a lower bound of the quadratic form of cov
relative to the Euclidean norm.  The minimum of torch.linalg.eigvalsh(cov)
(line 244-245) is the largest m with this property. -/
def RayleighLB {n : ℕ} (cov : Matrix (Fin n) (Fin n) ℝ) (m : ℝ) : Prop :=
  ∀ x : Fin n → ℝ, m * Matrix.dotProduct x x ≤ Matrix.dotProduct x (cov.mulVec x)

/-- Characterisation of eigvals.min() at line 245 for a symmetric matrix: m
bounds the Rayleigh quotient from below and is attained by an eigenvector, so
m is the smallest eigenvalue. -/
def IsMinEig {n : ℕ} (cov : Matrix (Fin n) (Fin n) ℝ) (m : ℝ) : Prop :=
  RayleighLB cov m ∧ ∃ v : Fin n → ℝ, v ≠ 0 ∧ cov.mulVec v = m • v

/-- A valid result of torch.linalg.cholesky(A): a lower-triangular L with
L * Lᵀ = A (real case). -/
def IsCholFactor {ν : Type} [Fintype ν] [LT ν] (L A : Matrix ν ν ℝ) : Prop :=
  (∀ i j : ν, i < j → L i j = 0) ∧ L * L.transpose = A

/-- torch.Tensor.max() on a possibly empty float tensor: raises (none) when the
tensor is empty. -/
def tmax (xs : List ℝ) : Option ℝ := xs.max?

/-- torch.multinomial(wt, n, replacement=True) with an external random source
draw: raises (none) on an empty weight tensor, otherwise returns n drawn
indices. -/
def torchMultinomial (wt : List ℝ) (n : ℕ) (draw : ℕ → ℕ) : Option (List ℕ) :=
  if wt.isEmpty then none else some ((List.range n).map draw)

/-- torch.cat over a python list of tensors: raises (none) when the list is
empty. -/
def torchCat {β : Type} (xs : List (List β)) : Option (List β) :=
  if xs.isEmpty then none else some xs.flatten

/-- get_posterior_neff (ns.py lines 210-216): wt = exp(logwt - logwt.max()),
normalised to its sum, and n_eff = (sum wt)^2 / sum(wt^2).  The reduction
logwt.max() raises on an empty archive. -/
noncomputable def get_posterior_neffO (logwt : List ℝ) : Option ℝ :=
  (tmax logwt).map (fun m =>
    let wt := logwt.map (fun w => Real.exp (w - m))
    let s := wt.sum
    let wtn := wt.map (fun w => w / s)
    (wtn.sum) ^ 2 / ((wtn.map (fun w => w ^ 2)).sum))

/-- get_posterior_samples (ns.py lines 200-208): default N is
int(get_posterior_neff()), weights are exp(logwt - max) normalised to their
sum, and N indices are drawn by torch.multinomial with replacement. -/
noncomputable def get_posterior_samplesO {α : Type} [Inhabited α]
    (X : List α) (logl : List ℚ) (logwt : List ℝ) (draw : ℕ → ℕ)
    (N? : Option ℕ) : Option (List α × List ℚ) := do
  let N ← match N? with
    | some n => some n
    | none => (get_posterior_neffO logwt).map (fun r => ⌊r⌋₊)
  let m ← tmax logwt
  let wt := logwt.map (fun w => Real.exp (w - m))
  let s := wt.sum
  let wtn := wt.map (fun w => w / s)
  let sel ← torchMultinomial wtn N draw
  some (sel.map (fun i => X.getD i default), sel.map (fun i => logl.getD i 0))

/-- Indices kept by the mask logl >= min_logl of ns.py line 224 / 233. -/
def maskIdx (logl : List ℚ) (min_logl : ℚ) : List ℕ :=
  (List.range logl.length).filter (fun i => decide (min_logl ≤ logl.getD i 0))

/-- get_constrained_prior_neff (ns.py lines 229-236) on the masked records:
wt = exp(logv - logv.max()) over the mask, n_eff = (sum wt)^2 / sum(wt^2).
The reduction logv[mask].max() raises when the mask is empty, in particular on
an empty archive. -/
noncomputable def get_constrained_prior_neffO (logl : List ℚ) (logv : List ℝ)
    (min_logl : ℚ) : Option ℝ :=
  let mlogv := (maskIdx logl min_logl).map (fun i => logv.getD i 0)
  (tmax mlogv).map (fun m =>
    let wt := mlogv.map (fun w => Real.exp (w - m))
    (wt.sum) ^ 2 / ((wt.map (fun w => w ^ 2)).sum))

/-- get_constrained_prior_samples (ns.py lines 218-227): default N is
int(get_constrained_prior_neff(min_logl)); the kept records are those with
logl >= min_logl, weighted by exp(logv - max over the mask), and N of them are
drawn by torch.multinomial (which normalises internally; the code does not
normalise here). -/
noncomputable def get_constrained_prior_samplesO {α : Type} [Inhabited α]
    (X : List α) (logl : List ℚ) (logv : List ℝ) (draw : ℕ → ℕ)
    (N? : Option ℕ) (min_logl : ℚ) : Option (List α × List ℚ) := do
  let N ← match N? with
    | some n => some n
    | none => (get_constrained_prior_neffO logl logv min_logl).map (fun r => ⌊r⌋₊)
  let idxs := maskIdx logl min_logl
  let mlogv := idxs.map (fun i => logv.getD i 0)
  let m ← tmax mlogv
  let wt := mlogv.map (fun w => Real.exp (w - m))
  let sel ← torchMultinomial wt N draw
  let mX := idxs.map (fun i => X.getD i default)
  let mlogl := idxs.map (fun i => logl.getD i 0)
  some (sel.map (fun i => mX.getD i default), sel.map (fun i => mlogl.getD i 0))

/-- generate_constrained_prior_samples (ns.py lines 175-191): draw N seed
points from the constrained prior resampler, then run N // batch_size proposal
batches (the loop body, _gen_new_samples on the i-th slice of the seeds, is the
external argument genBatch since its output is random), and torch.cat the
collected results.  The Lchol computed at line 183 is unused by the loop (the
inner call at lines 186-188 does not pass it), so it does not appear here. -/
noncomputable def generate_constrained_prior_samplesO {α : Type} [Inhabited α]
    (X : List α) (logl : List ℚ) (logv : List ℝ) (draw : ℕ → ℕ)
    (N batch_size : ℕ) (min_logl : ℚ) (genBatch : ℕ → List α × List ℚ) :
    Option (List α × List ℚ) := do
  let _seeds ← get_constrained_prior_samplesO X logl logv draw (some N) min_logl
  let results := (List.range (N / batch_size)).map genBatch
  let xs ← torchCat (results.map Prod.fst)
  let ls ← torchCat (results.map Prod.snd)
  some (xs, ls)

/-! Helper lemmas about listMin and list surgery. -/

theorem min?_eq_some_listMin {xs : List ℚ} (h : xs ≠ []) :
    xs.min? = some (listMin xs) := by
  cases hm : xs.min? with
  | none => exact absurd (List.min?_eq_none_iff.mp hm) h
  | some m => simp [listMin, hm]

theorem listMin_mem {xs : List ℚ} (h : xs ≠ []) : listMin xs ∈ xs :=
  List.min?_mem (fun a b => min_choice a b) (min?_eq_some_listMin h)

theorem listMin_le {xs : List ℚ} {a : ℚ} (ha : a ∈ xs) : listMin xs ≤ a := by
  have h : xs ≠ [] := by
    intro e
    rw [e] at ha
    exact absurd ha (List.not_mem_nil a)
  exact ((List.le_min?_iff (fun a b c => le_min_iff) (min?_eq_some_listMin h)).mp
    le_rfl) a ha

theorem set_ne_nil {β : Type} {xs : List β} (h : xs ≠ []) (i : ℕ) (l : β) :
    xs.set i l ≠ [] := by
  cases xs with
  | nil => exact absurd rfl h
  | cons a as => cases i <;> simp [List.set]

theorem listMin_le_set {xs : List ℚ} {l : ℚ} (h : xs ≠ []) (hl : listMin xs ≤ l)
    (i : ℕ) : listMin xs ≤ listMin (xs.set i l) := by
  have hmem := listMin_mem (set_ne_nil h i l)
  rcases List.mem_or_eq_of_mem_set hmem with hx | hx
  · exact listMin_le hx
  · rw [hx]
    exact hl

theorem acceptCandidate_L_live {α : Type} [Inhabited α] (st : NSState α) (x : α)
    (l : ℚ) :
    (acceptCandidate st x l).L_live = st.L_live.set (argminIdx st.L_live) l := rfl

theorem acceptCandidate_length {α : Type} [Inhabited α] (st : NSState α) (x : α)
    (l : ℚ) : (acceptCandidate st x l).L_live.length = st.L_live.length := by
  rw [acceptCandidate_L_live, List.length_set]

theorem listMin_le_acceptCandidate {α : Type} [Inhabited α] (st : NSState α)
    (x : α) (l : ℚ) (hne : st.L_live ≠ []) (hl : listMin st.L_live ≤ l) :
    listMin st.L_live ≤ listMin (acceptCandidate st x l).L_live := by
  rw [acceptCandidate_L_live]
  exact listMin_le_set hne hl _

theorem listMin_le_processCands {α : Type} [Inhabited α] (cands : List (α × ℚ))
    (st : NSState α) (hne : st.L_live ≠ []) :
    listMin st.L_live ≤ listMin (processCands st cands).L_live ∧
      (processCands st cands).L_live ≠ [] := by
  induction cands generalizing st with
  | nil => exact ⟨le_rfl, hne⟩
  | cons c rest ih =>
    obtain ⟨x, l⟩ := c
    by_cases hc : listMin st.L_live < l
    · have h1 : (acceptCandidate st x l).L_live ≠ [] := by
        rw [acceptCandidate_L_live]
        exact set_ne_nil hne _ _
      have h2 := ih (acceptCandidate st x l) h1
      constructor
      · simp only [processCands, if_pos hc]
        exact le_trans (listMin_le_acceptCandidate st x l hne (le_of_lt hc)) h2.1
      · simp only [processCands, if_pos hc]
        exact h2.2
    · simp only [processCands, if_neg hc]
      exact ⟨le_rfl, hne⟩

theorem listMin_le_nsRun {α : Type} [Inhabited α] (css : List (List (α × ℚ)))
    (st : NSState α) (hne : st.L_live ≠ []) :
    listMin st.L_live ≤ listMin (nsRun st css).L_live ∧
      (nsRun st css).L_live ≠ [] := by
  induction css generalizing st with
  | nil => exact ⟨le_rfl, hne⟩
  | cons cands rest ih =>
    have h1 := listMin_le_processCands cands st hne
    have h2 := ih (processCands st cands) h1.2
    exact ⟨le_trans h1.1 h2.1, h2.2⟩

/-! The bookkeeping invariant along a run. -/

theorem acceptCandidate_V {α : Type} [Inhabited α] (st : NSState α) (x : α)
    (l : ℚ) :
    (acceptCandidate st x l).V = st.V * (1 - 1 / (st.L_live.length : ℚ)) := rfl

theorem acceptCandidate_archive {α : Type} [Inhabited α] (st : NSState α)
    (x : α) (l : ℚ) :
    (acceptCandidate st x l).archive = st.archive ++
      [⟨st.X_live.getD (argminIdx st.L_live) default,
        st.L_live.getD (argminIdx st.L_live) 0, st.V,
        st.V * (1 - 1 / (st.L_live.length : ℚ)) / (st.L_live.length : ℚ)⟩] := rfl

theorem getD_map_of_lt {β γ : Type} (f : β → γ) (l : List β) {k : ℕ}
    (h : k < l.length) (d : β) (d' : γ) :
    (l.map f).getD k d' = f (l.getD k d) := by
  rw [List.getD_eq_getElem _ _ (by simpa using h), List.getD_eq_getElem _ _ h,
    List.getElem_map]

theorem goodState_init {α : Type} [Inhabited α] (X : List α) (L : List ℚ) :
    GoodState L.length (initState X L) := by
  refine ⟨rfl, by simp [initState], ?_⟩
  intro k hk
  simp [initState] at hk

theorem goodState_acceptCandidate {α : Type} [Inhabited α] {N : ℕ}
    {st : NSState α} (h : GoodState N st) (x : α) (l : ℚ) :
    GoodState N (acceptCandidate st x l) := by
  obtain ⟨hlen, hV, hrec⟩ := h
  have hlen' : (acceptCandidate st x l).archive.length = st.archive.length + 1 := by
    rw [acceptCandidate_archive, List.length_append, List.length_singleton]
  refine ⟨?_, ?_, ?_⟩
  · rw [acceptCandidate_length, hlen]
  · rw [acceptCandidate_V, hlen', hV, hlen, pow_succ]
  · intro k hk
    rw [hlen'] at hk
    rcases Nat.lt_or_ge k st.archive.length with hk' | hk'
    · rw [acceptCandidate_archive, List.getD_append _ _ _ _ hk']
      exact hrec k hk'
    · have hkeq : k = st.archive.length := le_antisymm (Nat.lt_succ_iff.mp hk) hk'
      subst hkeq
      rw [acceptCandidate_archive, List.getD_append_right _ _ _ _ le_rfl,
        Nat.sub_self]
      constructor
      · simpa using hV
      · simp only [List.getD_cons_zero]
        rw [hV, hlen, pow_succ]

theorem goodState_processCands {α : Type} [Inhabited α] {N : ℕ}
    (cands : List (α × ℚ)) {st : NSState α} (h : GoodState N st) :
    GoodState N (processCands st cands) := by
  induction cands generalizing st with
  | nil => exact h
  | cons c rest ih =>
    obtain ⟨x, l⟩ := c
    by_cases hc : listMin st.L_live < l
    · simp only [processCands, if_pos hc]
      exact ih (goodState_acceptCandidate h x l)
    · simp only [processCands, if_neg hc]
      exact h

theorem goodState_nsRun {α : Type} [Inhabited α] {N : ℕ}
    (css : List (List (α × ℚ))) {st : NSState α} (h : GoodState N st) :
    GoodState N (nsRun st css) := by
  induction css generalizing st with
  | nil => exact h
  | cons cands rest ih => exact ih (goodState_processCands cands h)

/-! Claim C5. -/

/-- C5: for every run, the minimum log-likelihood of the live population is
non-decreasing: every replacement overwrites the current minimum-likelihood
live point with a candidate whose log-likelihood strictly exceeds that
minimum (guard at ns.py line 146), so after any further sequence of driver
iterations the population minimum is at least the earlier minimum. -/
theorem C5_min_loglikelihood_monotone {α : Type} [Inhabited α] (st : NSState α)
    (css : List (List (α × ℚ))) (hne : st.L_live ≠ []) :
    listMin st.L_live ≤ listMin (nsRun st css).L_live :=
  (listMin_le_nsRun css st hne).1

theorem C5_witness :
    (initState [()] [(3 : ℚ)]).L_live ≠ [] ∧
      listMin (initState [()] [(3 : ℚ)]).L_live ≤
        listMin (nsRun (initState [()] [(3 : ℚ)]) [[((), 7)]]).L_live :=
  ⟨by decide, C5_min_loglikelihood_monotone (initState [()] [(3 : ℚ)])
    [[((), 7)]] (by decide)⟩

/-! Claim C4. -/

/-- C4: along any run with live-population size N at least 2, the archived
log-volumes are strictly decreasing, and the k-th record (zero-based, i.e. the
record appended after k earlier accepted replacements) logs the volume
(1 - 1/N)^k: the run starts at V = 1.0 (line 111) and every accepted
replacement multiplies V by (1 - 1/N) (line 154) after archiving the
pre-shrink volume (line 151). -/
theorem C4_volumes_strictly_decreasing {α : Type} [Inhabited α] (X : List α)
    (L : List ℚ) (css : List (List (α × ℚ))) (hN : 2 ≤ L.length) :
    (∀ j k : ℕ, j < k →
      k < (samples_logv (nsRun (initState X L) css)).length →
      (samples_logv (nsRun (initState X L) css)).getD k 0 <
        (samples_logv (nsRun (initState X L) css)).getD j 0) ∧
    (∀ k : ℕ, k < (samples_logv (nsRun (initState X L) css)).length →
      (samples_logv (nsRun (initState X L) css)).getD k 0 =
        Real.log ((1 - 1 / (L.length : ℝ)) ^ k)) := by
  obtain ⟨hlen, hV, hrec⟩ := goodState_nsRun css (goodState_init X L)
  have hN2 : (2 : ℝ) ≤ (L.length : ℝ) := by exact_mod_cast hN
  have hNpos : (0 : ℝ) < (L.length : ℝ) := by linarith
  have hr0 : (0 : ℝ) < 1 - 1 / (L.length : ℝ) := by
    have h2 : 1 / (L.length : ℝ) ≤ 1 / 2 :=
      one_div_le_one_div_of_le (by norm_num) hN2
    linarith
  have hr1 : 1 - 1 / (L.length : ℝ) < 1 := by
    have : 0 < 1 / (L.length : ℝ) := one_div_pos.mpr hNpos
    linarith
  have hform : ∀ k : ℕ, k < (samples_logv (nsRun (initState X L) css)).length →
      (samples_logv (nsRun (initState X L) css)).getD k 0 =
        Real.log ((1 - 1 / (L.length : ℝ)) ^ k) := by
    intro k hk
    have hk' : k < (nsRun (initState X L) css).archive.length := by
      simpa [samples_logv] using hk
    have := (hrec k hk').1
    rw [samples_logv, getD_map_of_lt logvOf _ hk' default 0, logvOf, this]
    push_cast
    ring_nf
  refine ⟨?_, hform⟩
  intro j k hjk hk
  have hj : j < (samples_logv (nsRun (initState X L) css)).length :=
    lt_trans hjk hk
  rw [hform k hk, hform j hj]
  exact Real.log_lt_log (pow_pos hr0 k)
    (pow_lt_pow_right_of_lt_one₀ hr0 hr1 hjk)

theorem C4_witness :
    2 ≤ [(0 : ℚ), 1].length ∧
      ((∀ j k : ℕ, j < k →
        k < (samples_logv (nsRun (initState [(), ()] [(0 : ℚ), 1])
          [[((), 5)], [((), 6)]])).length →
        (samples_logv (nsRun (initState [(), ()] [(0 : ℚ), 1])
          [[((), 5)], [((), 6)]])).getD k 0 <
          (samples_logv (nsRun (initState [(), ()] [(0 : ℚ), 1])
            [[((), 5)], [((), 6)]])).getD j 0) ∧
      (∀ k : ℕ, k < (samples_logv (nsRun (initState [(), ()] [(0 : ℚ), 1])
          [[((), 5)], [((), 6)]])).length →
        (samples_logv (nsRun (initState [(), ()] [(0 : ℚ), 1])
          [[((), 5)], [((), 6)]])).getD k 0 =
          Real.log ((1 - 1 / (([(0 : ℚ), 1].length : ℕ) : ℝ)) ^ k))) :=
  ⟨by norm_num, C4_volumes_strictly_decreasing [(), ()] [(0 : ℚ), 1]
    [[((), 5)], [((), 6)]] (by norm_num)⟩

/-! Claim C1. -/

/-- C1 (amended): for every record of a run with population size N at least 2,
the recorded log importance weight equals the record's log-likelihood plus the
log of (the SHRUNK volume divided by N), i.e.
logwt = logl + log(exp(logv) * (1 - 1/N) / N): line 157 of ns.py computes the
weight from the volume AFTER the shrink at line 154, one factor (1 - 1/N)
smaller than the volume whose log was stored at line 151. -/
theorem C1_logwt_uses_shrunk_volume {α : Type} [Inhabited α] (X : List α)
    (L : List ℚ) (css : List (List (α × ℚ))) (hN : 2 ≤ L.length) :
    ∀ k : ℕ, k < (samples_logwt (nsRun (initState X L) css)).length →
      (samples_logwt (nsRun (initState X L) css)).getD k 0 =
        ((samples_logl (nsRun (initState X L) css)).getD k 0 : ℝ) +
          Real.log (Real.exp ((samples_logv (nsRun (initState X L) css)).getD k 0) *
            (1 - 1 / (L.length : ℝ)) / (L.length : ℝ)) := by
  obtain ⟨hlen, hV, hrec⟩ := goodState_nsRun css (goodState_init X L)
  have hN2 : (2 : ℝ) ≤ (L.length : ℝ) := by exact_mod_cast hN
  have hNpos : (0 : ℝ) < (L.length : ℝ) := by linarith
  have hr0 : (0 : ℝ) < 1 - 1 / (L.length : ℝ) := by
    have h2 : 1 / (L.length : ℝ) ≤ 1 / 2 :=
      one_div_le_one_div_of_le (by norm_num) hN2
    linarith
  intro k hk
  have hk' : k < (nsRun (initState X L) css).archive.length := by
    simpa [samples_logwt] using hk
  obtain ⟨hVpre, hVoverN⟩ := hrec k hk'
  rw [samples_logwt, getD_map_of_lt logwtOf _ hk' default 0, logwtOf,
    samples_logl, getD_map_of_lt (fun r => r.logl) _ hk' default 0,
    samples_logv, getD_map_of_lt logvOf _ hk' default 0, logvOf,
    hVpre, hVoverN]
  congr 1
  rw [Real.exp_log (by push_cast; positivity)]
  push_cast
  rw [pow_succ]

/-- C1 (counterexample): in the two-point run that accepts one candidate of
log-likelihood 5, the single record has logv = log 1 = 0 (volume 1 at
retirement) and logl = 0, yet its logwt is log(1/4), not
logl + log(volume_at_retirement / N) = log(1/2): the claimed relation fails
because line 157 uses the volume after the shrink at line 154. -/
theorem C1_counterexample :
    ¬ ((samples_logwt (nsRun (initState [(), ()] [(0 : ℚ), 1])
        [[((), 5)]])).getD 0 0 =
      ((samples_logl (nsRun (initState [(), ()] [(0 : ℚ), 1])
        [[((), 5)]])).getD 0 0 : ℝ) +
        Real.log (Real.exp ((samples_logv (nsRun (initState [(), ()]
          [(0 : ℚ), 1]) [[((), 5)]])).getD 0 0) / 2)) := by
  have harch : (nsRun (initState [(), ()] [(0 : ℚ), 1]) [[((), 5)]]).archive =
      [⟨(), 0, 1, 1 / 4⟩] := by
    norm_num [nsRun, processCands, acceptCandidate, initState, listMin,
      List.min?_cons', argminIdx, List.findIdx_cons]
  rw [samples_logwt, samples_logl, samples_logv, harch]
  simp only [List.map_cons, List.map_nil, List.getD_cons_zero, logwtOf, logvOf]
  intro h
  rw [show ((0 : ℚ) : ℝ) = (0 : ℝ) by norm_num, zero_add, zero_add,
    show (((1 : ℚ) : ℝ)) = (1 : ℝ) by norm_num, Real.log_one, Real.exp_zero] at h
  have hlt : Real.log (((1 / 4 : ℚ) : ℝ)) < Real.log (1 / 2) :=
    Real.log_lt_log (by norm_num) (by norm_num)
  rw [h] at hlt
  exact lt_irrefl _ hlt

theorem C1_witness :
    2 ≤ [(0 : ℚ), 1].length ∧
      (∀ k : ℕ, k < (samples_logwt (nsRun (initState [(), ()] [(0 : ℚ), 1])
          [[((), 5)]])).length →
        (samples_logwt (nsRun (initState [(), ()] [(0 : ℚ), 1])
          [[((), 5)]])).getD k 0 =
          ((samples_logl (nsRun (initState [(), ()] [(0 : ℚ), 1])
            [[((), 5)]])).getD k 0 : ℝ) +
            Real.log (Real.exp ((samples_logv (nsRun (initState [(), ()]
              [(0 : ℚ), 1]) [[((), 5)]])).getD k 0) *
              (1 - 1 / (([(0 : ℚ), 1].length : ℕ) : ℝ)) /
              (([(0 : ℚ), 1].length : ℕ) : ℝ))) :=
  ⟨by norm_num, C1_logwt_uses_shrunk_volume [(), ()] [(0 : ℚ), 1]
    [[((), 5)]] (by norm_num)⟩

/-! Claim C6. -/

/-- C6: in one driver iteration the candidates returned by the proposal kernel
are processed in returned order and processing stops at the first candidate
whose log-likelihood does not exceed the current population minimum: if every
candidate of the prefix pre beats the then-current minimum and the next
candidate (x, l) does not, the iteration's final state is exactly the state
after processing pre — the candidates in post are never archived nor used for
a replacement in this iteration (break at ns.py line 161). -/
theorem C6_break_stops_batch {α : Type} [Inhabited α] (st : NSState α)
    (pre : List (α × ℚ)) (x : α) (l : ℚ) (post : List (α × ℚ))
    (hacc : allAccepted st pre)
    (hrej : ¬ listMin (processAll st pre).L_live < l) :
    processCands st (pre ++ (x, l) :: post) = processAll st pre := by
  induction pre generalizing st with
  | nil =>
    simp only [List.nil_append, processCands, processAll, List.foldl_nil]
    rw [if_neg (by simpa [processAll] using hrej)]
  | cons c rest ih =>
    obtain ⟨y, m⟩ := c
    obtain ⟨hc, hacc'⟩ := hacc
    simp only [List.cons_append, processCands]
    rw [if_pos hc]
    have hres := ih (acceptCandidate st y m) hacc'
      (by simpa [processAll] using hrej)
    simpa [processAll] using hres

theorem C6_witness :
    allAccepted (initState [(), ()] [(0 : ℚ), 10]) [] ∧
      ¬ listMin (processAll (initState [(), ()] [(0 : ℚ), 10]) []).L_live < 0 ∧
      processCands (initState [(), ()] [(0 : ℚ), 10])
          ([] ++ ((), (0 : ℚ)) :: [((), 5)]) =
        processAll (initState [(), ()] [(0 : ℚ), 10]) [] :=
  ⟨trivial, by decide,
    C6_break_stops_batch (initState [(), ()] [(0 : ℚ), 10]) [] () 0 [((), 5)]
      trivial (by decide)⟩

/-! Helper lemmas for the argmax selection of the slice step. -/

theorem max?_eq_some_listMaxZ {xs : List ℤ} (h : xs ≠ []) :
    xs.max? = some (listMaxZ xs) := by
  cases hm : xs.max? with
  | none => exact absurd (List.max?_eq_none_iff.mp hm) h
  | some m => simp [listMaxZ, hm]

theorem listMaxZ_mem {xs : List ℤ} (h : xs ≠ []) : listMaxZ xs ∈ xs :=
  List.max?_mem (fun a b => max_choice a b) (max?_eq_some_listMaxZ h)

theorem le_listMaxZ {xs : List ℤ} {a : ℤ} (ha : a ∈ xs) : a ≤ listMaxZ xs := by
  have h : xs ≠ [] := by
    intro e
    rw [e] at ha
    exact absurd ha (List.not_mem_nil a)
  exact ((List.max?_le_iff (fun a b c => max_le_iff) (max?_eq_some_listMaxZ h)).mp
    le_rfl) a ha

theorem boolInt_le_one (b : Bool) : boolInt b ≤ 1 := by
  cases b <;> simp [boolInt]

theorem argmaxIdx_of_first_true (bs : List Bool) {j : ℕ} (hj : j < bs.length)
    (hbj : bs.get ⟨j, hj⟩ = true)
    (hfirst : ∀ i : ℕ, ∀ hi : i < j, bs.get ⟨i, lt_trans hi hj⟩ = false) :
    argmaxIdx (bs.map boolInt) = j := by
  have hone : (1 : ℤ) ∈ bs.map boolInt := by
    refine List.mem_map.mpr ⟨bs.get ⟨j, hj⟩, List.get_mem _ _ _, ?_⟩
    rw [hbj]
    rfl
  have hle : ∀ a ∈ bs.map boolInt, a ≤ 1 := by
    intro a ha
    obtain ⟨b, _, rfl⟩ := List.mem_map.mp ha
    exact boolInt_le_one b
  have hne : bs.map boolInt ≠ [] := by
    intro e
    rw [e] at hone
    exact absurd hone (List.not_mem_nil 1)
  have hmax : listMaxZ (bs.map boolInt) = 1 :=
    le_antisymm (hle _ (listMaxZ_mem hne)) (le_listMaxZ hone)
  have hjlen : j < (bs.map boolInt).length := by simpa using hj
  rw [argmaxIdx, hmax, List.findIdx_eq hjlen]
  constructor
  · have : (bs.map boolInt)[j] = boolInt (bs.get ⟨j, hj⟩) := by
      simp [List.getElem_map]
    rw [this, hbj]
    decide
  · intro i hi
    have : (bs.map boolInt)[i] = boolInt (bs.get ⟨i, lt_trans hi hj⟩) := by
      simp [List.getElem_map]
    rw [this, hfirst i hi]
    decide

/-! Claim C7. -/

/-- C7: within one slice-sampling step, per chain: a candidate is acceptable
iff its log-likelihood strictly exceeds the threshold and it satisfies the
boundary predicate (line 81); the candidate selected is the first acceptable
one in generation order (torch.argmax of the int-cast accept row, line 82);
and a chain none of whose candidates is acceptable keeps its working position
and log-likelihood unchanged for this step (lines 85-87). -/
theorem C7_first_acceptable_selected {α : Type} (inbound : α → Bool)
    (logl_fn : α → ℚ) (logl_th : ℚ) (x : α) (logl : ℚ) (props : List α) :
    (∀ p ∈ props,
      ((decide (logl_th < logl_fn p) && inbound p) = true ↔
        (logl_th < logl_fn p ∧ inbound p = true))) ∧
    ((∀ p ∈ props, ¬ (logl_th < logl_fn p ∧ inbound p = true)) →
      sliceStepChain inbound logl_fn logl_th x logl props = (x, logl)) ∧
    (∀ j : ℕ, ∀ hj : j < props.length,
      (logl_th < logl_fn (props.get ⟨j, hj⟩) ∧ inbound (props.get ⟨j, hj⟩) = true) →
      (∀ i : ℕ, ∀ hi : i < j,
        ¬ (logl_th < logl_fn (props.get ⟨i, lt_trans hi hj⟩) ∧
            inbound (props.get ⟨i, lt_trans hi hj⟩) = true)) →
      sliceStepChain inbound logl_fn logl_th x logl props =
        (props.get ⟨j, hj⟩, logl_fn (props.get ⟨j, hj⟩))) := by
  refine ⟨?_, ?_, ?_⟩
  · intro p _
    simp [Bool.and_eq_true, decide_eq_true_iff]
  · intro hnone
    have hany : (props.map (fun p => decide (logl_th < logl_fn p) && inbound p)).any id
        = false := by
      rw [List.any_eq_false]
      intro b hb
      obtain ⟨p, hp, rfl⟩ := List.mem_map.mp hb
      simp only [id_eq, Bool.and_eq_true, decide_eq_true_iff]
      intro hc
      exact hnone p hp hc
    simp [sliceStepChain, hany]
  · intro j hj hjacc hifirst
    have hjget : (props.map (fun p => decide (logl_th < logl_fn p) && inbound p)).get
        ⟨j, by simpa using hj⟩ = true := by
      simp only [List.get_eq_getElem, List.getElem_map, Bool.and_eq_true,
        decide_eq_true_iff]
      exact ⟨hjacc.1, hjacc.2⟩
    have hifalse : ∀ i : ℕ, ∀ hi : i < j,
        (props.map (fun p => decide (logl_th < logl_fn p) && inbound p)).get
          ⟨i, lt_trans hi (by simpa using hj)⟩ = false := by
      intro i hi
      simp only [List.get_eq_getElem, List.getElem_map]
      rw [Bool.and_eq_false_iff]
      rcases Decidable.em (logl_th < logl_fn (props.get ⟨i, lt_trans hi hj⟩)) with hc | hc
      · right
        have hni := hifirst i hi
        simp only [List.get_eq_getElem] at hni hc
        rcases Bool.eq_false_or_eq_true (inbound props[i]) with hb | hb
        · exact absurd ⟨hc, hb⟩ hni
        · exact hb
      · left
        simp only [List.get_eq_getElem] at hc
        simpa using hc
    have hidx := argmaxIdx_of_first_true
      (props.map (fun p => decide (logl_th < logl_fn p) && inbound p))
      (by simpa using hj) hjget hifalse
    have hany : (props.map (fun p => decide (logl_th < logl_fn p) && inbound p)).any id
        = true := by
      rw [List.any_eq_true]
      refine ⟨true, ?_, rfl⟩
      rw [← hjget]
      exact List.get_mem _ _ _
    simp only [sliceStepChain, hany, if_true, hidx]
    rw [Prod.mk.injEq]
    constructor
    · rw [List.getD_eq_getElem _ _ hj]
      simp [List.get_eq_getElem]
    · rw [List.getD_eq_getElem _ _ (by simpa using hj)]
      simp [List.get_eq_getElem, List.getElem_map]

theorem C7_witness :
    sliceStepChain (fun q : ℚ => decide (q ≤ 10)) id 0 0 (-1)
        [(-1 : ℚ), 5, 7] = (5, 5) := by
  have h := (C7_first_acceptable_selected (fun q : ℚ => decide (q ≤ 10)) id 0 0
    (-1) [(-1 : ℚ), 5, 7]).2.2 1 (by norm_num)
    (by constructor
        · show (0 : ℚ) < 5
          norm_num
        · decide)
    (by intro i hi
        have hi0 : i = 0 := by omega
        subst hi0
        intro hc
        have hbad : (0 : ℚ) < -1 := by simpa using hc.1
        norm_num at hbad)
  simpa using h

/-! Claim C3. -/

/-- C3 (amended): when _gen_new_samples is invoked without a precomputed
whitening factor, the covariance it factorizes is that of the seed batch
passed in (_calc_Lchol(X_seeds), ns.py lines 65-66), not that of the full
live population; whenever the two covariances differ the used matrix differs
from the live population's.  When a factor is passed in (as the main loop
always does at lines 134-140, computing it from X_live), that factor is used
unchanged. -/
theorem C3_default_whitening_from_seeds {d : ℕ}
    (X_seeds X_live : List (Fin d → ℚ))
    (hdiff : sampleCov X_seeds ≠ sampleCov X_live) :
    gnsWhitenCov X_seeds none = calcLcholCov X_seeds ∧
      gnsWhitenCov X_seeds none ≠ calcLcholCov X_live ∧
      ∀ C : Matrix (Fin d) (Fin d) ℚ, gnsWhitenCov X_seeds (some C) = C :=
  ⟨rfl, hdiff, fun _ => rfl⟩

/-- C3 (counterexample): with seed batch (0), (2), (4) and live population
(0), (1), (2) in one dimension, the covariance factorized on the default path
is the seeds' sample covariance 4, not the live population's sample
covariance 1, refuting the claim that the factor is computed from the full
current live population. -/
theorem C3_counterexample :
    gnsWhitenCov [fun _ : Fin 1 => (0 : ℚ), fun _ => 2, fun _ => 4] none =
        calcLcholCov [fun _ : Fin 1 => (0 : ℚ), fun _ => 2, fun _ => 4] ∧
      gnsWhitenCov [fun _ : Fin 1 => (0 : ℚ), fun _ => 2, fun _ => 4] none ≠
        calcLcholCov [fun _ : Fin 1 => (0 : ℚ), fun _ => 1, fun _ => 2] := by
  constructor
  · rfl
  · intro h
    have h00 := congrFun (congrFun h 0) 0
    norm_num [gnsWhitenCov, calcLcholCov, sampleCov, sampleMean,
      Matrix.of_apply] at h00

theorem C3_witness :
    sampleCov [fun _ : Fin 1 => (0 : ℚ), fun _ => 2, fun _ => 4] ≠
        sampleCov [fun _ : Fin 1 => (0 : ℚ), fun _ => 1, fun _ => 2] ∧
      (gnsWhitenCov [fun _ : Fin 1 => (0 : ℚ), fun _ => 2, fun _ => 4] none =
          calcLcholCov [fun _ : Fin 1 => (0 : ℚ), fun _ => 2, fun _ => 4] ∧
        gnsWhitenCov [fun _ : Fin 1 => (0 : ℚ), fun _ => 2, fun _ => 4] none ≠
          calcLcholCov [fun _ : Fin 1 => (0 : ℚ), fun _ => 1, fun _ => 2] ∧
        ∀ C : Matrix (Fin 1) (Fin 1) ℚ,
          gnsWhitenCov [fun _ : Fin 1 => (0 : ℚ), fun _ => 2, fun _ => 4]
            (some C) = C) := by
  have hdiff : sampleCov [fun _ : Fin 1 => (0 : ℚ), fun _ => 2, fun _ => 4] ≠
      sampleCov [fun _ : Fin 1 => (0 : ℚ), fun _ => 1, fun _ => 2] := by
    intro h
    have h00 := congrFun (congrFun h 0) 0
    norm_num [sampleCov, sampleMean, Matrix.of_apply] at h00
  exact ⟨hdiff, C3_default_whitening_from_seeds _ _ hdiff⟩

/-! Helper lemmas for the Cholesky repair path: existence of a lower
triangular factor for a positive definite real matrix, via the LDL
decomposition. -/

theorem dotProduct_self_pos {n : ℕ} {v : Fin n → ℝ} (hv : v ≠ 0) :
    0 < Matrix.dotProduct v v := by
  rcases lt_or_eq_of_le (Finset.sum_nonneg fun i _ => mul_self_nonneg (v i)) with h | h
  · exact h
  · exact absurd (Matrix.dotProduct_self_eq_zero.mp h.symm) hv

theorem posDef_hasCholFactor {ν : Type} [Fintype ν] [LinearOrder ν]
    [WellFoundedLT ν] [LocallyFiniteOrderBot ν] {A : Matrix ν ν ℝ}
    (hA : A.PosDef) : ∃ L : Matrix ν ν ℝ, IsCholFactor L A := by
  have hlowtri : ∀ i j : ν, i < j → LDL.lower hA i j = 0 := by
    have htri : (LDL.lowerInv hA).BlockTriangular OrderDual.toDual := by
      intro i j hij
      exact LDL.lowerInv_triangular hA hij
    have hinv : (LDL.lowerInv hA)⁻¹.BlockTriangular OrderDual.toDual :=
      Matrix.blockTriangular_inv_of_blockTriangular htri
    intro i j hij
    exact hinv hij
  have hdiagpos : ∀ i : ν, 0 < LDL.diagEntries hA i := by
    intro i
    have hrow : LDL.lowerInv hA i ≠ 0 := by
      intro h0
      have hdet : (LDL.lowerInv hA).det = 0 :=
        Matrix.det_eq_zero_of_row_eq_zero i (fun j => congrFun h0 j)
      have hunit : IsUnit (LDL.lowerInv hA).det :=
        (Matrix.isUnit_iff_isUnit_det _).mp (isUnit_of_invertible _)
      rw [hdet] at hunit
      exact hunit.ne_zero rfl
    have hpos := hA.2 (star (LDL.lowerInv hA i)) (by simpa using hrow)
    simp only [star_trivial] at hpos
    simp only [LDL.diagEntries, PiLp.inner_apply, WithLp.equiv_symm_pi_apply,
      RCLike.inner_apply, starRingEnd_apply, star_trivial]
    simpa [Matrix.dotProduct] using hpos
  refine ⟨LDL.lower hA *
    Matrix.diagonal (fun i => Real.sqrt (LDL.diagEntries hA i)), ?_, ?_⟩
  · intro i j hij
    rw [Matrix.mul_apply]
    apply Finset.sum_eq_zero
    intro k _
    by_cases hkj : k = j
    · subst hkj
      rw [hlowtri i k hij, zero_mul]
    · rw [Matrix.diagonal_apply_ne _ hkj, mul_zero]
  · have hDD : Matrix.diagonal (fun i => Real.sqrt (LDL.diagEntries hA i)) *
        (Matrix.diagonal (fun i => Real.sqrt (LDL.diagEntries hA i))).transpose =
        LDL.diag hA := by
      rw [Matrix.diagonal_transpose, Matrix.diagonal_mul_diagonal, LDL.diag,
        show (fun i => Real.sqrt (LDL.diagEntries hA i) *
            Real.sqrt (LDL.diagEntries hA i)) = LDL.diagEntries hA from
          funext fun i => Real.mul_self_sqrt (le_of_lt (hdiagpos i))]
    rw [Matrix.transpose_mul, ← Matrix.mul_assoc, Matrix.mul_assoc (LDL.lower hA),
      hDD, ← Matrix.conjTranspose_eq_transpose_of_trivial]
    exact LDL.lower_conj_diag hA

/-! Claim C2. -/

/-- C2 (amended): for every symmetric covariance matrix whose first Cholesky
factorization fails because its minimum eigenvalue is strictly negative, the
repaired matrix cov - 2 * mineig * I (ns.py line 246) is strictly positive
definite and hence admits a lower-triangular Cholesky factor, so the single
retry succeeds.  (A singular positive semidefinite matrix, whose minimum
eigenvalue is 0, is left unchanged by the shift and the retry fails as well:
see the counterexample.) -/
theorem C2_repair_succeeds_for_negative_mineig {n : ℕ}
    {cov : Matrix (Fin n) (Fin n) ℝ} {m : ℝ} (hherm : cov.IsHermitian)
    (hmin : IsMinEig cov m) (hneg : m < 0) :
    (repairedCov cov m).PosDef ∧
      ∃ L : Matrix (Fin n) (Fin n) ℝ, IsCholFactor L (repairedCov cov m) := by
  have hpd : (repairedCov cov m).PosDef := by
    constructor
    · show (cov - (2 * m) • 1).conjTranspose = cov - (2 * m) • 1
      rw [Matrix.conjTranspose_sub, Matrix.conjTranspose_smul,
        Matrix.conjTranspose_one, hherm.eq, star_trivial]
    · intro x hx
      have hq := hmin.1 x
      have hxx : 0 < Matrix.dotProduct x x := dotProduct_self_pos hx
      simp only [repairedCov, star_trivial, Matrix.sub_mulVec,
        Matrix.smul_mulVec_assoc, Matrix.one_mulVec, Matrix.dotProduct_sub,
        Matrix.dotProduct_smul, smul_eq_mul]
      nlinarith
  haveI : WellFoundedLT (Fin n) := inferInstance
  exact ⟨hpd, posDef_hasCholFactor hpd⟩

/-- C2 (counterexample): the singular covariance matrix [[1,1],[1,1]] is
symmetric and not positive definite (its first factorization fails), its
minimum eigenvalue is exactly 0 (Rayleigh bound 0 attained by the eigenvector
(1,-1)), the repair shift cov - 2*0*I leaves it unchanged, and the repaired
matrix is still not positive definite: the retry fails as well, so the repair
path does not handle every singular (rank-deficient) covariance matrix. -/
theorem C2_counterexample :
    (Matrix.of ![![(1 : ℝ), 1], ![1, 1]]).IsHermitian ∧
      ¬ (Matrix.of ![![(1 : ℝ), 1], ![1, 1]]).PosDef ∧
      IsMinEig (Matrix.of ![![(1 : ℝ), 1], ![1, 1]]) 0 ∧
      repairedCov (Matrix.of ![![(1 : ℝ), 1], ![1, 1]]) 0 =
        Matrix.of ![![(1 : ℝ), 1], ![1, 1]] ∧
      ¬ (repairedCov (Matrix.of ![![(1 : ℝ), 1], ![1, 1]]) 0).PosDef := by
  have hx : (![1, -1] : Fin 2 → ℝ) ≠ 0 := by
    intro h0
    have h00 := congrFun h0 0
    norm_num at h00
  have hnpd : ¬ (Matrix.of ![![(1 : ℝ), 1], ![1, 1]]).PosDef := by
    intro h
    have hq := h.2 ![1, -1] hx
    have hzero : Matrix.dotProduct (star (![1, -1] : Fin 2 → ℝ))
        ((Matrix.of ![![(1 : ℝ), 1], ![1, 1]]).mulVec ![1, -1]) = 0 := by
      simp [Matrix.dotProduct, Matrix.mulVec, Fin.sum_univ_two, star_trivial]
    rw [hzero] at hq
    exact lt_irrefl 0 hq
  have hrep : repairedCov (Matrix.of ![![(1 : ℝ), 1], ![1, 1]]) 0 =
      Matrix.of ![![(1 : ℝ), 1], ![1, 1]] := by
    simp [repairedCov]
  refine ⟨?_, hnpd, ⟨?_, ![1, -1], hx, ?_⟩, hrep, ?_⟩
  · show (Matrix.of ![![(1 : ℝ), 1], ![1, 1]]).conjTranspose =
      Matrix.of ![![(1 : ℝ), 1], ![1, 1]]
    ext i j
    fin_cases i <;> fin_cases j <;> simp [Matrix.conjTranspose_apply]
  · intro x
    have hq : Matrix.dotProduct x
        ((Matrix.of ![![(1 : ℝ), 1], ![1, 1]]).mulVec x) =
        (x 0 + x 1) * (x 0 + x 1) := by
      simp [Matrix.dotProduct, Matrix.mulVec, Fin.sum_univ_two]
      ring
    rw [hq, zero_mul]
    nlinarith [sq_nonneg (x 0 + x 1)]
  · funext i
    fin_cases i <;>
      simp [Matrix.mulVec, Matrix.dotProduct, Fin.sum_univ_two]
  · rw [hrep]
    exact hnpd

theorem C2_witness :
    (Matrix.of ![![(0 : ℝ), 1], ![1, 0]]).IsHermitian ∧
      IsMinEig (Matrix.of ![![(0 : ℝ), 1], ![1, 0]]) (-1) ∧
      (-1 : ℝ) < 0 ∧
      ((repairedCov (Matrix.of ![![(0 : ℝ), 1], ![1, 0]]) (-1)).PosDef ∧
        ∃ L : Matrix (Fin 2) (Fin 2) ℝ,
          IsCholFactor L (repairedCov (Matrix.of ![![(0 : ℝ), 1], ![1, 0]]) (-1))) := by
  have hherm : (Matrix.of ![![(0 : ℝ), 1], ![1, 0]]).IsHermitian := by
    show (Matrix.of ![![(0 : ℝ), 1], ![1, 0]]).conjTranspose =
      Matrix.of ![![(0 : ℝ), 1], ![1, 0]]
    ext i j
    fin_cases i <;> fin_cases j <;> simp [Matrix.conjTranspose_apply]
  have hx : (![1, -1] : Fin 2 → ℝ) ≠ 0 := by
    intro h0
    have h00 := congrFun h0 0
    norm_num at h00
  have hmin : IsMinEig (Matrix.of ![![(0 : ℝ), 1], ![1, 0]]) (-1) := by
    refine ⟨?_, ![1, -1], hx, ?_⟩
    · intro x
      have hq : Matrix.dotProduct x
          ((Matrix.of ![![(0 : ℝ), 1], ![1, 0]]).mulVec x) =
          x 0 * x 1 + x 1 * x 0 := by
        simp [Matrix.dotProduct, Matrix.mulVec, Fin.sum_univ_two]
      rw [hq]
      have hdc : Matrix.dotProduct x x = x 0 * x 0 + x 1 * x 1 := by
        simp [Matrix.dotProduct, Fin.sum_univ_two]
      rw [hdc]
      nlinarith [sq_nonneg (x 0 + x 1)]
    · funext i
      fin_cases i <;>
        simp [Matrix.mulVec, Matrix.dotProduct, Fin.sum_univ_two]
  exact ⟨hherm, hmin, by norm_num,
    C2_repair_succeeds_for_negative_mineig hherm hmin (by norm_num)⟩

/-! Claim C8. -/

/-- C8: on an empty archive (no run performed, or zero records) every
resampling operation errors instead of returning an empty or garbage sample
set: get_posterior_samples fails at logwt.max() over the empty weight tensor
(directly for an explicit N, inside get_posterior_neff for the default N), and
get_constrained_prior_samples fails at logv[mask].max() over the empty masked
tensor, for every requested N and every threshold. -/
theorem C8_empty_archive_errors {α : Type} [Inhabited α] :
    ∀ (N? : Option ℕ) (draw : ℕ → ℕ) (min_logl : ℚ),
      get_posterior_samplesO ([] : List α) [] [] draw N? = none ∧
      get_constrained_prior_samplesO ([] : List α) [] [] draw N? min_logl =
        none := by
  intro N? draw min_logl
  constructor
  · cases N? with
    | none => simp [get_posterior_samplesO, get_posterior_neffO, tmax]
    | some n => simp [get_posterior_samplesO, tmax]
  · cases N? with
    | none =>
      simp [get_constrained_prior_samplesO, get_constrained_prior_neffO,
        tmax, maskIdx]
    | some n => simp [get_constrained_prior_samplesO, tmax, maskIdx]

/-! Claim C9. -/

/-- C9: the effective-sample-size computation of get_posterior_neff,
(sum wt)^2 / sum(wt^2) after normalising the weights exp(logwt - max logwt) to
their sum, returns exactly M on every uniform log-weight vector of length
M >= 1. -/
theorem C9_neff_uniform_weights (M : ℕ) (c : ℝ) (hM : 1 ≤ M) :
    get_posterior_neffO (List.replicate M c) = some (M : ℝ) := by
  have hMR : ((M : ℝ)) ≠ 0 := by
    have h1 : (1 : ℝ) ≤ (M : ℝ) := by exact_mod_cast hM
    linarith
  have hmax : tmax (List.replicate M c) = some c :=
    List.max?_replicate_of_pos (max_self c) hM
  simp only [get_posterior_neffO, hmax, Option.map_some', List.map_replicate,
    sub_self, Real.exp_zero, List.sum_replicate, smul_eq_mul, mul_one,
    Option.some.injEq]
  simp only [nsmul_eq_mul, mul_one]
  rw [mul_one_div, div_self hMR, one_pow]
  field_simp
  ring

theorem C9_witness :
    1 ≤ 3 ∧ get_posterior_neffO (List.replicate 3 (0 : ℝ)) = some ((3 : ℕ) : ℝ) :=
  ⟨by norm_num, C9_neff_uniform_weights 3 0 (by norm_num)⟩

/-! Claim C10. -/

/-- C10: for every requested count N with 1 <= N < batch_size,
generate_constrained_prior_samples runs N // batch_size = 0 proposal batches
and then fails at torch.cat over the empty result lists (ns.py line 191)
instead of returning samples, whatever the archive contents: requests below
the batch size never succeed. -/
theorem C10_small_requests_never_succeed {α : Type} [Inhabited α] (X : List α)
    (logl : List ℚ) (logv : List ℝ) (draw : ℕ → ℕ) (N batch_size : ℕ)
    (min_logl : ℚ) (genBatch : ℕ → List α × List ℚ) (h1 : 1 ≤ N)
    (h2 : N < batch_size) :
    N / batch_size = 0 ∧
      generate_constrained_prior_samplesO X logl logv draw N batch_size
        min_logl genBatch = none := by
  have hdiv : N / batch_size = 0 := Nat.div_eq_of_lt h2
  refine ⟨hdiv, ?_⟩
  cases hseeds : get_constrained_prior_samplesO X logl logv draw (some N)
      min_logl with
  | none => simp [generate_constrained_prior_samplesO, hseeds]
  | some s =>
    simp [generate_constrained_prior_samplesO, hseeds, hdiv, torchCat]

theorem C10_witness :
    1 ≤ 5 ∧ (5 : ℕ) < 100 ∧
      ((5 : ℕ) / 100 = 0 ∧
        generate_constrained_prior_samplesO ([()] : List Unit) [0] [0] id 5 100
          0 (fun _ => ([], [])) = none) :=
  ⟨by norm_num, by norm_num,
    C10_small_requests_never_succeed [()] [0] [0] id 5 100 0
      (fun _ => ([], [])) (by norm_num) (by norm_num)⟩

end TorchNS
